import Mathlib

/-!
Verification of the alignment post-processing and phoneme-encoding pipeline of
the kaldi-align repository.

The definitions below are shallow embeddings of the Python source:

* src/kaldi_align/utils.py       — LANG_STRESS table, id_to_phonemes
* src/kaldi_align/align2json.py  — phones.prons line parsing, suffix stripping,
                                   break-marker reconstruction
* src/kaldi_align/align2csv.py   — stress peeling, SKIP_PHONES filtering,
                                   vocabulary lookup, per-line encoding
* src/kaldi_align/__main__.py    — engine utterance id generation, the break
                                   and frame-rate constants

Python strings are modelled as Lean String (lists of code points); machine
integers are Nat (all quantities here are non-negative counters); seconds are
exact rationals; code that raises an uncaught exception on a given input is
modelled as an Option-valued function returning none there.
-/

namespace KaldiAlign

/-! ### Constants

From src/kaldi_align/__main__.py (the same values are imported by
align2json.py and align2csv.py from the package's const module) and the
gruut_ipa IPA symbols referenced by utils.py (the source's own comments name
their code points: acute accent 0x0027, primary stress 0x02C8). -/

def WORD_BREAK : String := "#"

def BREAK_MINOR : String := "|"

def BREAK_MAJOR : String := "‖"

def FRAMES_PER_SEC : Nat := 100

def STRESS_PRIMARY : String := "ˈ"

def STRESS_SECONDARY : String := "ˌ"

def ACCENT_ACUTE : String := String.mk [Char.ofNat 39]

def ACCENT_GRAVE : String := "²"

/-- The per-language stress table _LANG_STRESS of utils.py, as the total
lookup performed by dict.get with default False. -/
def LANG_STRESS (lang : String) : Bool :=
  lang == "en-us" || lang == "fr-fr" || lang == "es-es" || lang == "it-it"

/-! ### Lexicographic string order

Python compares strings lexicographically by code point; this is the order
used by the built-in sorted(). -/

def lexLeChars : List Char → List Char → Bool
  | [], _ => true
  | _ :: _, [] => false
  | a :: as, b :: bs =>
    if a.toNat < b.toNat then true
    else if b.toNat < a.toNat then false
    else lexLeChars as bs

theorem lexLeChars_head_le {a b : Char} {as bs : List Char}
    (h : lexLeChars (a :: as) (b :: bs) = true) : a.toNat ≤ b.toNat := by
  by_cases hab : a.toNat < b.toNat
  · omega
  · by_cases hba : b.toNat < a.toNat
    · simp [lexLeChars, hab, hba] at h
    · omega

theorem lexLeChars_cons_eq {a b : Char} (h : a.toNat = b.toNat) (as bs : List Char) :
    lexLeChars (a :: as) (b :: bs) = lexLeChars as bs := by
  simp [lexLeChars, h]

theorem lexLeChars_total : ∀ l1 l2 : List Char,
    lexLeChars l1 l2 = true ∨ lexLeChars l2 l1 = true := by
  intro l1
  induction l1 with
  | nil => intro l2; exact Or.inl rfl
  | cons a as ih =>
    intro l2
    cases l2 with
    | nil => exact Or.inr rfl
    | cons b bs =>
      by_cases hab : a.toNat < b.toNat
      · exact Or.inl (by simp [lexLeChars, hab])
      · by_cases hba : b.toNat < a.toNat
        · exact Or.inr (by simp [lexLeChars, hba])
        · rcases ih bs with h | h
          · exact Or.inl (by simp [lexLeChars, hab, hba, h])
          · exact Or.inr (by simp [lexLeChars, hab, hba, h])

theorem lexLeChars_trans : ∀ l1 l2 l3 : List Char,
    lexLeChars l1 l2 = true → lexLeChars l2 l3 = true → lexLeChars l1 l3 = true := by
  intro l1
  induction l1 with
  | nil => intro l2 l3 _ _; rfl
  | cons a as ih =>
    intro l2 l3 h12 h23
    cases l2 with
    | nil => simp [lexLeChars] at h12
    | cons b bs =>
      cases l3 with
      | nil => simp [lexLeChars] at h23
      | cons c cs =>
        have h1 := lexLeChars_head_le h12
        have h2 := lexLeChars_head_le h23
        by_cases hac : a.toNat < c.toNat
        · simp [lexLeChars, hac]
        · have hab : a.toNat = b.toNat := by omega
          have hbc : b.toNat = c.toNat := by omega
          rw [lexLeChars_cons_eq (by omega) as cs]
          rw [lexLeChars_cons_eq hab as bs] at h12
          rw [lexLeChars_cons_eq hbc bs cs] at h23
          exact ih bs cs h12 h23

theorem lexLeChars_antisymm : ∀ l1 l2 : List Char,
    lexLeChars l1 l2 = true → lexLeChars l2 l1 = true → l1 = l2 := by
  intro l1
  induction l1 with
  | nil =>
    intro l2 _ h21
    cases l2 with
    | nil => rfl
    | cons b bs => simp [lexLeChars] at h21
  | cons a as ih =>
    intro l2 h12 h21
    cases l2 with
    | nil => simp [lexLeChars] at h12
    | cons b bs =>
      have h1 := lexLeChars_head_le h12
      have h2 := lexLeChars_head_le h21
      have hab : a.toNat = b.toNat := by omega
      have hcc : a = b := Char.eq_of_val_eq (UInt32.ext hab)
      subst hcc
      rw [lexLeChars_cons_eq rfl as bs] at h12
      rw [lexLeChars_cons_eq rfl bs as] at h21
      rw [ih bs h12 h21]

def strLe (a b : String) : Prop := lexLeChars a.data b.data = true

instance : DecidableRel strLe :=
  fun a b => inferInstanceAs (Decidable (lexLeChars a.data b.data = true))

instance : IsTotal String strLe := ⟨fun a b => lexLeChars_total a.data b.data⟩

instance : IsTrans String strLe := ⟨fun a b c => lexLeChars_trans a.data b.data c.data⟩

instance : IsAntisymm String strLe :=
  ⟨fun a b h1 h2 => by
    have h := lexLeChars_antisymm a.data b.data h1 h2
    cases a with
    | mk da =>
      cases b with
      | mk db => exact congrArg String.mk h⟩

/-- Python's sorted() on a list of strings: the unique strLe-sorted
permutation of the input. -/
def sortStrings (l : List String) : List String := List.insertionSort strLe l

theorem sortStrings_sorted (l : List String) : (sortStrings l).Sorted strLe :=
  List.sorted_insertionSort strLe l

theorem sortStrings_perm (l : List String) : (sortStrings l).Perm l :=
  List.perm_insertionSort strLe l

theorem sortStrings_congr {l1 l2 : List String} (h : l1.Perm l2) :
    sortStrings l1 = sortStrings l2 :=
  List.eq_of_perm_of_sorted
    ((sortStrings_perm l1).trans (h.trans (sortStrings_perm l2).symm))
    (sortStrings_sorted l1) (sortStrings_sorted l2)

/-! ### Phoneme vocabulary builder (utils.py, id_to_phonemes)

The language's phoneme inventory comes from the external gruut_ipa data
source (Phonemes.from_language); it is passed here as the explicit list
argument inventory, in the iteration order of that source. -/

/-- The resolution of the no_stress argument: the source only consults the
per-language table when the caller passes None. -/
def stress_off (lang : String) (no_stress : Option Bool) : Bool :=
  match no_stress with
  | none => !(LANG_STRESS lang)
  | some b => b

/-- The resolution of the no_accents argument: accents only for Swedish
when the caller passes None. -/
def accents_off (lang : String) (no_accents : Option Bool) : Bool :=
  match no_accents with
  | none => lang != "sv-se"
  | some b => b

/-- id_to_phonemes of utils.py. The Python defaults are pad = "_",
no_pad = false, no_word_break = false, no_stress = some false,
no_accents = none, tones = none. -/
def id_to_phonemes (lang : String) (inventory : List String) (pad : String)
    (no_pad : Bool) (no_word_break : Bool) (no_stress : Option Bool)
    (no_accents : Option Bool) (tones : Option (List String)) : List String :=
  (if no_pad then [] else [pad]) ++ [BREAK_MINOR, BREAK_MAJOR] ++
    (if no_word_break then [] else [WORD_BREAK]) ++
    (if accents_off lang no_accents then [] else [ACCENT_ACUTE, ACCENT_GRAVE]) ++
    (if stress_off lang no_stress then [] else [STRESS_PRIMARY, STRESS_SECONDARY]) ++
    tones.getD [] ++ sortStrings inventory

/-- The call align2csv.py makes: id_to_phonemes(args.language), every other
argument left at its Python default. -/
def align2csv_phonemes (lang : String) (inventory : List String) : List String :=
  id_to_phonemes lang inventory "_" false false (some false) none none

/-- Claim C1: for every language and option set the vocabulary is exactly the
concatenation pad? ++ [minorBreak, majorBreak] ++ wordBreak? ++ accents ++
stresses ++ tones ++ the sorted phoneme inventory; the tail is a sorted
permutation of the inventory, the pad (when included) occupies index 0, and
the result is independent of the iteration order of the inventory source. -/
theorem c1_vocabulary_structure (lang : String) (inventory : List String)
    (pad : String) (no_pad no_word_break : Bool) (no_stress no_accents : Option Bool)
    (tones : Option (List String)) :
    id_to_phonemes lang inventory pad no_pad no_word_break no_stress no_accents tones =
      (if no_pad then [] else [pad]) ++ [BREAK_MINOR, BREAK_MAJOR] ++
        (if no_word_break then [] else [WORD_BREAK]) ++
        (if accents_off lang no_accents then [] else [ACCENT_ACUTE, ACCENT_GRAVE]) ++
        (if stress_off lang no_stress then [] else [STRESS_PRIMARY, STRESS_SECONDARY]) ++
        tones.getD [] ++ sortStrings inventory
    ∧ (sortStrings inventory).Sorted strLe
    ∧ (sortStrings inventory).Perm inventory
    ∧ (no_pad = false →
        (id_to_phonemes lang inventory pad no_pad no_word_break no_stress no_accents
          tones)[0]? = some pad)
    ∧ (∀ inventory2, inventory2.Perm inventory →
        id_to_phonemes lang inventory2 pad no_pad no_word_break no_stress no_accents tones =
          id_to_phonemes lang inventory pad no_pad no_word_break no_stress no_accents tones) := by
  refine ⟨rfl, sortStrings_sorted inventory, sortStrings_perm inventory, ?_, ?_⟩
  · intro h
    subst h
    simp [id_to_phonemes]
  · intro inv2 hperm
    simp [id_to_phonemes, sortStrings_congr hperm]

theorem c1_vocabulary_structure_witness :
    (align2csv_phonemes "en-us" ["b", "a"])[0]? = some "_"
    ∧ id_to_phonemes "en-us" ["a", "b"] "_" false false (some false) none none =
        id_to_phonemes "en-us" ["b", "a"] "_" false false (some false) none none :=
  ⟨(c1_vocabulary_structure "en-us" ["b", "a"] "_" false false (some false) none none).2.2.2.1
      rfl,
    (c1_vocabulary_structure "en-us" ["b", "a"] "_" false false (some false) none none).2.2.2.2
      ["a", "b"] (by decide)⟩

/-- Claim C4 counterexample: passing the minor-break symbol as a tone makes
id_to_phonemes return a vocabulary with a duplicate symbol and no error, so
a successfully built vocabulary need not be duplicate-free. -/
theorem c4_counterexample :
    ¬ (id_to_phonemes "de-de" [] "_" false false (some false) none
        (some [BREAK_MINOR])).Nodup := by
  decide

/-- Claim C4 amended: vocabulary construction performs no disjointness check
and cannot fail; a symbol belonging to two category lists (here a break
marker that also appears among the tones) simply occurs at least twice in
the resulting vocabulary. -/
theorem c4_no_conflict_check (lang : String) (inventory : List String)
    (pad : String) (no_pad no_word_break : Bool) (no_stress no_accents : Option Bool)
    (tones : List String) (s : String)
    (h1 : s ∈ [BREAK_MINOR, BREAK_MAJOR]) (h2 : s ∈ tones) :
    2 ≤ (id_to_phonemes lang inventory pad no_pad no_word_break no_stress no_accents
          (some tones)).count s := by
  have hb : 0 < [BREAK_MINOR, BREAK_MAJOR].count s := List.count_pos_iff.mpr h1
  have ht : 0 < tones.count s := List.count_pos_iff.mpr h2
  simp only [id_to_phonemes, List.count_append, Option.getD_some]
  omega

theorem c4_no_conflict_check_witness :
    2 ≤ (id_to_phonemes "en-us" [] "_" false false (some false) none
          (some [BREAK_MINOR])).count BREAK_MINOR :=
  c4_no_conflict_check "en-us" [] "_" false false (some false) none [BREAK_MINOR]
    BREAK_MINOR (by decide) (by decide)

/-- Claim C5 counterexample: German is not in the per-language stress table,
yet the encoder's defaulted builder call still includes the primary stress
marker, because the Python default for no_stress is False, not None. -/
theorem c5_counterexample :
    LANG_STRESS "de-de" = false ∧ STRESS_PRIMARY ∈ align2csv_phonemes "de-de" [] := by
  decide

/-- Claim C5 amended: under the encoder's defaulted call the builder applies
its own default no_stress = False, so stress markers are included for every
language; the per-language table is consulted only when no_stress is passed
explicitly as None, and then stress markers appear exactly for the table's
languages (for inventories not already containing the marker). -/
theorem c5_default_stress (lang : String) (inventory : List String) :
    STRESS_PRIMARY ∈ align2csv_phonemes lang inventory
    ∧ STRESS_SECONDARY ∈ align2csv_phonemes lang inventory
    ∧ (STRESS_PRIMARY ∉ inventory →
        (STRESS_PRIMARY ∈ id_to_phonemes lang inventory "_" false false none none none ↔
          LANG_STRESS lang = true)) := by
  refine ⟨?_, ?_, ?_⟩
  · simp [align2csv_phonemes, id_to_phonemes, stress_off]
  · simp [align2csv_phonemes, id_to_phonemes, stress_off]
  · intro hnot
    constructor
    · intro hmem
      by_cases hl : LANG_STRESS lang = true
      · exact hl
      · exfalso
        have hl' : LANG_STRESS lang = false := by
          cases h : LANG_STRESS lang
          · rfl
          · exact absurd h hl
        by_cases hacc : accents_off lang none
        · have hfront : id_to_phonemes lang inventory "_" false false none none none =
              (["_", BREAK_MINOR, BREAK_MAJOR, WORD_BREAK] : List String) ++
                sortStrings inventory := by
            simp [id_to_phonemes, stress_off, hl', hacc]
          rw [hfront] at hmem
          rcases List.mem_append.mp hmem with h | h
          · exact absurd h (by decide)
          · exact hnot ((sortStrings_perm inventory).subset h)
        · have hfront : id_to_phonemes lang inventory "_" false false none none none =
              (["_", BREAK_MINOR, BREAK_MAJOR, WORD_BREAK, ACCENT_ACUTE, ACCENT_GRAVE] :
                List String) ++ sortStrings inventory := by
            simp [id_to_phonemes, stress_off, hl', hacc]
          rw [hfront] at hmem
          rcases List.mem_append.mp hmem with h | h
          · exact absurd h (by decide)
          · exact hnot ((sortStrings_perm inventory).subset h)
    · intro hl
      simp [id_to_phonemes, stress_off, hl]

theorem c5_default_stress_witness :
    STRESS_PRIMARY ∈ align2csv_phonemes "de-de" []
    ∧ (STRESS_PRIMARY ∈ id_to_phonemes "en-us" [] "_" false false none none none ↔
        LANG_STRESS "en-us" = true) :=
  ⟨(c5_default_stress "de-de" []).1, (c5_default_stress "en-us" []).2.2 (by decide)⟩

/-! ### Phone-label suffix stripping (align2json.py)

Python str.rfind returns the highest index of the character, or -1 when it
is absent; rlast_idx models it with an Option. -/

def rlast_idx {α : Type} [DecidableEq α] : List α → α → Option Nat
  | [], _ => none
  | x :: xs, c =>
    match rlast_idx xs c with
    | some i => some (i + 1)
    | none => if x = c then some 0 else none

theorem rlast_idx_isSome {α : Type} [DecidableEq α] (l : List α) (c : α) :
    (rlast_idx l c).isSome = true ↔ c ∈ l := by
  induction l with
  | nil => simp [rlast_idx]
  | cons x xs ih =>
    rw [rlast_idx]
    cases h : rlast_idx xs c with
    | some i =>
      have hc : c ∈ xs := ih.mp (by simp [h])
      simp [List.mem_cons, hc]
    | none =>
      have hc : c ∉ xs := by
        intro hm
        have := ih.mpr hm
        simp [h] at this
      by_cases hxc : x = c
      · simp [hxc, List.mem_cons]
      · simp only [hxc, if_false, List.mem_cons, Option.isSome_none]
        constructor
        · intro habs; exact absurd habs (by simp)
        · intro hor
          rcases hor with h1 | h1
          · exact absurd h1.symm hxc
          · exact absurd h1 hc

theorem rlast_idx_spec {α : Type} [DecidableEq α] (l : List α) (c : α) (i : Nat) (d : α)
    (h : rlast_idx l c = some i) :
    i < l.length ∧ l.getD i d = c ∧ ∀ j, i < j → j < l.length → l.getD j d ≠ c := by
  induction l generalizing i with
  | nil => simp [rlast_idx] at h
  | cons x xs ih =>
    rw [rlast_idx] at h
    cases hx : rlast_idx xs c with
    | some k =>
      rw [hx] at h
      injection h with h
      subst h
      obtain ⟨h1, h2, h3⟩ := ih k hx
      refine ⟨by simpa using Nat.succ_lt_succ h1, by simpa using h2, ?_⟩
      intro j hj1 hj2
      cases j with
      | zero => omega
      | succ j' =>
        have := h3 j' (by omega) (by simpa using hj2)
        simpa using this
    | none =>
      rw [hx] at h
      by_cases hxc : x = c
      · rw [if_pos hxc] at h
        injection h with h
        subst h
        have hnotin : c ∉ xs := by
          intro hm
          have := (rlast_idx_isSome xs c).mpr hm
          simp [hx] at this
        refine ⟨by simp, by simpa using hxc, ?_⟩
        intro j hj1 hj2
        cases j with
        | zero => omega
        | succ j' =>
          intro habs
          apply hnotin
          have hj' : j' < xs.length := by simpa using hj2
          rw [List.getD_cons_succ] at habs
          rw [List.getD_eq_getElem xs d hj'] at habs
          rw [← habs]
          exact List.getElem_mem hj'
      · rw [if_neg hxc] at h
        cases h

theorem rlast_idx_of_last {α : Type} [DecidableEq α] (l : List α) (c : α) (p : Nat) (d : α)
    (hp : p < l.length) (hc : l.getD p d = c)
    (hlast : ∀ j, p < j → j < l.length → l.getD j d ≠ c) :
    rlast_idx l c = some p := by
  induction l generalizing p with
  | nil => simp at hp
  | cons x xs ih =>
    cases p with
    | zero =>
      have hnotin : c ∉ xs := by
        intro hm
        obtain ⟨k, hk, hkc⟩ := List.mem_iff_getElem.mp hm
        have := hlast (k + 1) (by omega) (by simpa using Nat.succ_lt_succ hk)
        rw [List.getD_cons_succ, List.getD_eq_getElem xs d hk] at this
        exact this hkc
      have hnone : rlast_idx xs c = none := by
        cases h : rlast_idx xs c with
        | none => rfl
        | some k =>
          exfalso
          apply hnotin
          exact (rlast_idx_isSome xs c).mp (by simp [h])
      rw [rlast_idx, hnone]
      simp only [List.getD_cons_zero] at hc
      rw [if_pos hc]
    | succ p' =>
      have hrec : rlast_idx xs c = some p' := by
        apply ih p' (by simpa using hp) (by simpa using hc)
        intro j hj1 hj2
        have := hlast (j + 1) (by omega) (by simpa using Nat.succ_lt_succ hj2)
        simpa using this
      rw [rlast_idx, hrec]

/-- The suffix stripping of align2json.py: split_idx = phone_str.rfind "_";
the label is truncated at split_idx only when split_idx > 0. -/
def strip_phone (s : String) : String :=
  match rlast_idx s.data '_' with
  | some i => if 0 < i then String.mk (s.data.take i) else s
  | none => s

theorem strip_phone_of_none (s : String) (h : rlast_idx s.data '_' = none) :
    strip_phone s = s := by
  unfold strip_phone
  rw [h]

theorem strip_phone_of_some (s : String) (k : Nat) (h : rlast_idx s.data '_' = some k) :
    strip_phone s = if 0 < k then String.mk (s.data.take k) else s := by
  unfold strip_phone
  rw [h]

theorem getD_mem_drop_one {α : Type} (l : List α) (d : α) (k : Nat)
    (h0 : 0 < k) (hk : k < l.length) : l.getD k d ∈ l.drop 1 := by
  cases l with
  | nil => simp at hk
  | cons x xs =>
    cases k with
    | zero => omega
    | succ k' =>
      have hk' : k' < xs.length := by simpa using hk
      rw [List.getD_cons_succ]
      show xs.getD k' d ∈ xs
      rw [List.getD_eq_getElem xs d hk']
      exact List.getElem_mem hk'

/-- Claim C6 counterexample: the label x_ ends in the separator with an empty
tag; the claim says it is left unchanged, but the code strips it to x since
rfind returns index 1 > 0. -/
theorem c6_counterexample : strip_phone "x_" = "x" ∧ "x_" ≠ "x" := by
  constructor
  · rfl
  · decide

/-- Claim C6 amended: stripping truncates at the last separator occurrence
exactly when that occurrence is at an index greater than zero, regardless of
whether a tag follows it; a label with no separator beyond index 0 is
unchanged (so a label whose only separator is its first character is also
unchanged, even with a non-empty tag). -/
theorem c6_strip_characterization (l : List Char) :
    (('_' ∉ l.drop 1) → strip_phone (String.mk l) = String.mk l)
    ∧ (∀ i, i + 1 < l.length → l.getD (i + 1) ' ' = '_' →
        (∀ j, i + 1 < j → j < l.length → l.getD j ' ' ≠ '_') →
        strip_phone (String.mk l) = String.mk (l.take (i + 1))) := by
  constructor
  · intro hnot
    cases h : rlast_idx l '_' with
    | none => exact strip_phone_of_none (String.mk l) h
    | some k =>
      obtain ⟨h1, h2, _⟩ := rlast_idx_spec l '_' k ' ' h
      have hk : ¬ 0 < k := by
        intro hk
        apply hnot
        rw [← h2]
        exact getD_mem_drop_one l ' ' k hk h1
      rw [strip_phone_of_some (String.mk l) k h, if_neg hk]
  · intro i hi hc hlast
    have h : rlast_idx l '_' = some (i + 1) :=
      rlast_idx_of_last l '_' (i + 1) ' ' hi hc hlast
    rw [strip_phone_of_some (String.mk l) (i + 1) h, if_pos (Nat.succ_pos i)]

theorem c6_strip_characterization_witness :
    strip_phone (String.mk ['x', '_', 'B']) = String.mk (['x', '_', 'B'].take 1)
    ∧ strip_phone (String.mk ['_', 'B']) = String.mk ['_', 'B'] :=
  ⟨(c6_strip_characterization ['x', '_', 'B']).2 0 (by decide) (by decide)
      (fun j h1 h2 => by
        have h3 : j = 2 := by
          have : j < 3 := by simpa using h2
          omega
        subst h3
        decide),
    (c6_strip_characterization ['_', 'B']).1 (by decide)⟩

/-! ### Frame alignment parsing (align2json.py, mirrored in __main__.py)

One line of phones.prons is whitespace-split into
kaldi_utt_id, start_frame, comma-separated durations, word, phone labels.
Python's int() raises on a non-numeric field and the exception is uncaught,
killing the batch; that is modelled by returning none. The numeric fields
the engine emits are plain decimal digit strings, which is what parseNat
accepts. -/

def parseNatGo (acc : Nat) : List Char → Option Nat
  | [] => some acc
  | c :: cs => if c.isDigit then parseNatGo (10 * acc + (c.toNat - 48)) cs else none

def parseNat (s : String) : Option Nat :=
  match s.data with
  | [] => none
  | l => parseNatGo 0 l

/-- Python's str.split(",") — pieces between commas, empty pieces kept,
and the empty string yields one empty piece. -/
def splitCommaGo (cur : List Char) : List Char → List (List Char)
  | [] => [cur.reverse]
  | c :: cs =>
    if c = ',' then cur.reverse :: splitCommaGo [] cs else splitCommaGo (c :: cur) cs

def splitComma (s : String) : List String := (splitCommaGo [] s.data).map String.mk

/-- The list comprehension [int(f) for f in parts[2].split(",")]: fails as a
whole if any element fails. -/
def parseNatList : List String → Option (List Nat)
  | [] => some []
  | s :: ss =>
    match parseNat s with
    | none => none
    | some n =>
      match parseNatList ss with
      | none => none
      | some ns => some (n :: ns)

structure PhoneInterval where
  mk ::
  start : ℚ
  duration : ℚ
  phone : String

structure WordEntry where
  mk ::
  word : String
  phones : List PhoneInterval

/-- The word_phones loop: zip(phone_strs, frame_durations) — Python's zip
truncates to the shorter sequence — with a running start frame, suffix
stripping, and division by the frames-per-second value at span
construction. -/
def word_phones_from (fps : Nat) : Nat → List (String × Nat) → List PhoneInterval
  | _, [] => []
  | startF, pd :: rest =>
    PhoneInterval.mk ((startF : ℚ) / (fps : ℚ)) ((pd.2 : ℚ) / (fps : ℚ))
        (strip_phone pd.1) ::
      word_phones_from fps (startF + pd.2) rest

/-- Parsing one phones.prons line (already whitespace-split, as by
line.split()). A line with fewer than four fields raises IndexError in the
source; a non-numeric start frame or duration raises ValueError; both are
modelled as none. -/
def parse_prons_line (fps : Nat) (line_parts : List String) :
    Option (String × WordEntry) :=
  match line_parts with
  | kaldi_utt_id :: startS :: dursS :: word :: phone_strs =>
    match parseNat startS with
    | none => none
    | some startF =>
      match parseNatList (splitComma dursS) with
      | none => none
      | some durs =>
        some (kaldi_utt_id,
          WordEntry.mk word (word_phones_from fps startF (phone_strs.zip durs)))
  | _ => none

theorem word_phones_from_length (fps : Nat) (startF : Nat) (l : List (String × Nat)) :
    (word_phones_from fps startF l).length = l.length := by
  induction l generalizing startF with
  | nil => rfl
  | cons pd rest ih =>
    rw [word_phones_from]
    simp [ih]

theorem parseNatList_none (l : List String) :
    parseNatList l = none ↔ ∃ f ∈ l, parseNat f = none := by
  induction l with
  | nil => simp [parseNatList]
  | cons s ss ih =>
    rw [parseNatList]
    cases h1 : parseNat s with
    | none =>
      constructor
      · intro _
        exact ⟨s, List.mem_cons_self s ss, h1⟩
      · intro _
        rfl
    | some n =>
      cases h2 : parseNatList ss with
      | none =>
        constructor
        · intro _
          obtain ⟨f, hf, hfn⟩ := ih.mp h2
          exact ⟨f, List.mem_cons_of_mem s hf, hfn⟩
        · intro _
          rfl
      | some ns =>
        constructor
        · intro habs
          exact absurd habs (by simp)
        · rintro ⟨f, hf, hfn⟩
          rcases List.mem_cons.mp hf with hfe | hfm
          · subst hfe
            rw [hfn] at h1
            cases h1
          · have hn : parseNatList ss = none := ih.mpr ⟨f, hfm, hfn⟩
            rw [hn] at h2
            cases h2

/-- Claim C2 counterexample: a line with two phone labels but a single frame
duration does not fail; the parser succeeds and silently produces a
truncated word alignment with one phone span. -/
theorem c2_counterexample :
    (parse_prons_line FRAMES_PER_SEC ["k1", "120", "10", "HELLO", "h_B", "eh_I"]).map
      (fun r => r.2.phones.length) = some 1 := by
  rfl

/-- Claim C2 amended: a numeric field that does not parse as an integer is
fatal (the parser yields no record), and this is the only failure of a line
with at least four fields; but a mismatch between the phone-label count and
the duration count is not detected — the parser succeeds and zip truncation
yields min(labels, durations) phone spans. -/
theorem c2_parse_malformed (fps : Nat) (uid startS dursS word : String)
    (phone_strs : List String) :
    (parse_prons_line fps (uid :: startS :: dursS :: word :: phone_strs) = none ↔
      parseNat startS = none ∨ parseNatList (splitComma dursS) = none)
    ∧ (parseNatList (splitComma dursS) = none ↔
        ∃ f ∈ splitComma dursS, parseNat f = none)
    ∧ (∀ startF durs, parseNat startS = some startF →
        parseNatList (splitComma dursS) = some durs →
        parse_prons_line fps (uid :: startS :: dursS :: word :: phone_strs) =
            some (uid,
              WordEntry.mk word (word_phones_from fps startF (phone_strs.zip durs)))
          ∧ (word_phones_from fps startF (phone_strs.zip durs)).length =
              min phone_strs.length durs.length) := by
  refine ⟨?_, parseNatList_none (splitComma dursS), ?_⟩
  · rw [parse_prons_line]
    cases h1 : parseNat startS with
    | none => simp
    | some n =>
      cases h2 : parseNatList (splitComma dursS) with
      | none => simp
      | some ns => simp
  · intro startF durs h1 h2
    constructor
    · rw [parse_prons_line, h1, h2]
    · rw [word_phones_from_length, List.length_zip]

theorem c2_parse_malformed_witness :
    (parse_prons_line 100 ["k1", "1x2", "10", "HELLO", "h_B"] = none ↔
      parseNat "1x2" = none ∨ parseNatList (splitComma "10") = none)
    ∧ (parse_prons_line 100 ["k1", "120", "10", "HELLO", "h_B", "eh_I"] =
          some ("k1",
            WordEntry.mk "HELLO"
              (word_phones_from 100 120 (["h_B", "eh_I"].zip [10])))
        ∧ (word_phones_from 100 120 (["h_B", "eh_I"].zip [10])).length =
            min (["h_B", "eh_I"] : List String).length ([10] : List Nat).length) :=
  ⟨(c2_parse_malformed 100 "k1" "1x2" "10" "HELLO" ["h_B"]).1,
    (c2_parse_malformed 100 "k1" "120" "10" "HELLO" ["h_B", "eh_I"]).2.2 120 [10]
      (by rfl) (by rfl)⟩

/-! ### Frame-to-time conversion in __main__.py (claim C8)

get_args declares a --frames-per-second option, default 100, but the
conversion loop divides by the module constant _FRAMES_PER_SEC and never
reads args.frames_per_second. -/

/-- The conversion actually performed by main(): the caller-supplied
frames-per-second value is accepted and ignored. -/
def main_parse_prons_line (frames_per_second : Nat) (line_parts : List String) :
    Option (String × WordEntry) :=
  parse_prons_line FRAMES_PER_SEC line_parts

/-- Modelled from the spec: frame-to-time conversion seconds =
frames / framesPerSecond with the frames-per-second value supplied by the
caller (the behaviour the declared --frames-per-second option advertises,
absent from main()'s loop). -/
def spec_parse_prons_line (frames_per_second : Nat) (line_parts : List String) :
    Option (String × WordEntry) :=
  parse_prons_line frames_per_second line_parts

/-- Claim C8: with a caller-supplied 200 frames/second, the code still
divides by the constant 100 — the line starting at frame 120 with a
10-frame phone gets start 1.2 s and duration 0.1 s, where the claimed
behaviour gives 0.6 s and 0.05 s. -/
theorem c8_frames_per_second_ignored :
    (main_parse_prons_line 200 ["spk-00", "120", "10", "HELLO", "h_B"]).map
        (fun r => r.2.phones.map (fun p => (p.start, p.duration))) =
      some [((6 : ℚ) / 5, (1 : ℚ) / 10)]
    ∧ (spec_parse_prons_line 200 ["spk-00", "120", "10", "HELLO", "h_B"]).map
        (fun r => r.2.phones.map (fun p => (p.start, p.duration))) =
      some [((3 : ℚ) / 5, (1 : ℚ) / 20)]
    ∧ (6 : ℚ) / 5 ≠ (3 : ℚ) / 5 := by
  refine ⟨?_, ?_, by norm_num⟩
  · have h : (main_parse_prons_line 200 ["spk-00", "120", "10", "HELLO", "h_B"]).map
        (fun r => r.2.phones.map (fun p => (p.start, p.duration))) =
        some [(((120 : Nat) : ℚ) / ((100 : Nat) : ℚ),
               ((10 : Nat) : ℚ) / ((100 : Nat) : ℚ))] := rfl
    rw [h]
    norm_num
  · have h : (spec_parse_prons_line 200 ["spk-00", "120", "10", "HELLO", "h_B"]).map
        (fun r => r.2.phones.map (fun p => (p.start, p.duration))) =
        some [(((120 : Nat) : ℚ) / ((200 : Nat) : ℚ),
               ((10 : Nat) : ℚ) / ((200 : Nat) : ℚ))] := rfl
    rw [h]
    norm_num

/-! ### Boundary reconstruction (align2json.py output loop)

For each utterance: ipas starts with the word break, then per word either
the interior-placeholder break pair or the word's phones followed by a word
break, and finally the major break. -/

def emit_word (count idx : Nat) (w : WordEntry) : List String :=
  if w.word == "<eps>" then
    if 0 < idx ∧ idx < count - 1 then [BREAK_MINOR, WORD_BREAK] else []
  else
    w.phones.map (fun p => p.phone) ++ [WORD_BREAK]

def emit_words (count idx : Nat) : List WordEntry → List String
  | [] => []
  | w :: rest => emit_word count idx w ++ emit_words count (idx + 1) rest

def utt_ipas (ws : List WordEntry) : List String :=
  WORD_BREAK :: (emit_words ws.length 0 ws ++ [BREAK_MAJOR])

/-- Python's enumerate, starting at i. -/
def enumerate {α : Type} (i : Nat) : List α → List (Nat × α)
  | [] => []
  | a :: as => (i, a) :: enumerate (i + 1) as

theorem emit_words_eq_enumerate (count : Nat) (i : Nat) (ws : List WordEntry) :
    emit_words count i ws =
      ((enumerate i ws).map (fun p => emit_word count p.1 p.2)).flatten := by
  induction ws generalizing i with
  | nil => rfl
  | cons w rest ih =>
    rw [emit_words, enumerate]
    simp [ih]

/-- Claim C3: the reconstructor emits a leading word break and a trailing
major break; per word, in order, a placeholder emits the minor-break and
word-break pair exactly when it is neither first nor last (edge placeholders
emit nothing), while a speech word emits its stripped phones followed by a
word break; hence the two utterance shapes of the claim. -/
theorem c3_boundary_reconstruction :
    (∀ ws : List WordEntry,
        utt_ipas ws =
          [WORD_BREAK] ++
            ((enumerate 0 ws).map (fun p => emit_word ws.length p.1 p.2)).flatten ++
            [BREAK_MAJOR])
    ∧ (∀ ws : List WordEntry,
        (utt_ipas ws).head? = some WORD_BREAK
        ∧ (utt_ipas ws).getLast? = some BREAK_MAJOR)
    ∧ (∀ count idx w, w.word = "<eps>" →
        emit_word count idx w =
          if 0 < idx ∧ idx < count - 1 then [BREAK_MINOR, WORD_BREAK] else [])
    ∧ (∀ count idx w, w.word ≠ "<eps>" →
        emit_word count idx w = w.phones.map (fun p => p.phone) ++ [WORD_BREAK])
    ∧ (∀ w1 sil1 sil2 ph, w1 ≠ "<eps>" →
        utt_ipas [WordEntry.mk "<eps>" sil1, WordEntry.mk w1 ph,
            WordEntry.mk "<eps>" sil2] =
          [WORD_BREAK] ++ ph.map (fun p => p.phone) ++ [WORD_BREAK, BREAK_MAJOR])
    ∧ (∀ w1 w2 sil phA phB, w1 ≠ "<eps>" → w2 ≠ "<eps>" →
        utt_ipas [WordEntry.mk w1 phA, WordEntry.mk "<eps>" sil,
            WordEntry.mk w2 phB] =
          [WORD_BREAK] ++ phA.map (fun p => p.phone) ++
            [WORD_BREAK, BREAK_MINOR, WORD_BREAK] ++ phB.map (fun p => p.phone) ++
            [WORD_BREAK, BREAK_MAJOR]) := by
  refine ⟨?_, ?_, ?_, ?_, ?_, ?_⟩
  · intro ws
    rw [utt_ipas, emit_words_eq_enumerate]
    rfl
  · intro ws
    constructor
    · rfl
    · rw [utt_ipas]
      rw [show WORD_BREAK :: (emit_words ws.length 0 ws ++ [BREAK_MAJOR]) =
            (WORD_BREAK :: emit_words ws.length 0 ws) ++ [BREAK_MAJOR] by simp]
      exact List.getLast?_concat _
  · intro count idx w hw
    rw [emit_word]
    have : (w.word == "<eps>") = true := by simp [hw]
    rw [this]
    rfl
  · intro count idx w hw
    rw [emit_word]
    have : (w.word == "<eps>") = false := by simp [hw]
    rw [this]
    rfl
  · intro w1 sil1 sil2 ph hw
    have : (w1 == "<eps>") = false := by simp [hw]
    simp [utt_ipas, emit_words, emit_word, this]
  · intro w1 w2 sil phA phB hw1 hw2
    have h1 : (w1 == "<eps>") = false := by simp [hw1]
    have h2 : (w2 == "<eps>") = false := by simp [hw2]
    simp [utt_ipas, emit_words, emit_word, h1, h2]

theorem c3_boundary_reconstruction_witness :
    utt_ipas [WordEntry.mk "<eps>" [], WordEntry.mk "W1" [PhoneInterval.mk 0 1 "p"],
        WordEntry.mk "<eps>" []] =
      [WORD_BREAK] ++ [PhoneInterval.mk (0 : ℚ) 1 "p"].map (fun p => p.phone) ++
        [WORD_BREAK, BREAK_MAJOR] :=
  (c3_boundary_reconstruction).2.2.2.2.1 "W1" [] [] [PhoneInterval.mk 0 1 "p"]
    (by decide)

/-! ### Decimal digits

Python's str() on a non-negative integer, as the list of decimal digits,
most significant first (with str(0) = "0"). Defined with structural fuel so
that concrete values reduce in the kernel. -/

def digitsAux : Nat → Nat → List Nat
  | 0, _ => []
  | fuel + 1, n => if n < 10 then [n] else digitsAux fuel (n / 10) ++ [n % 10]

def natDigits (n : Nat) : List Nat := digitsAux (n + 1) n

theorem digitsAux_stable : ∀ fuel1 : Nat, ∀ fuel2 n : Nat, n < fuel1 → n < fuel2 →
    digitsAux fuel1 n = digitsAux fuel2 n := by
  intro fuel1
  induction fuel1 with
  | zero => intro fuel2 n h1 _; omega
  | succ f1 ih =>
    intro fuel2 n h1 h2
    cases fuel2 with
    | zero => omega
    | succ f2 =>
      rw [digitsAux, digitsAux]
      by_cases hn : n < 10
      · rw [if_pos hn, if_pos hn]
      · rw [if_neg hn, if_neg hn]
        have hd : n / 10 < n := Nat.div_lt_self (by omega) (by omega)
        rw [ih f2 (n / 10) (by omega) (by omega)]

theorem natDigits_lt {n : Nat} (h : n < 10) : natDigits n = [n] := by
  rw [natDigits, digitsAux, if_pos h]

theorem natDigits_ge {n : Nat} (h : 10 ≤ n) :
    natDigits n = natDigits (n / 10) ++ [n % 10] := by
  rw [natDigits, digitsAux, if_neg (by omega)]
  have hd : n / 10 < n := Nat.div_lt_self (by omega) (by omega)
  rw [digitsAux_stable n (n / 10 + 1) (n / 10) (by omega) (by omega)]
  rw [natDigits]

/-- The numeric value of a most-significant-first digit list. -/
def digitsVal (l : List Nat) : Nat := l.foldl (fun a d => 10 * a + d) 0

theorem foldl_digits_init (l : List Nat) : ∀ x : Nat,
    l.foldl (fun a d => 10 * a + d) x = x * 10 ^ l.length + digitsVal l := by
  induction l with
  | nil => intro x; simp [digitsVal]
  | cons d ds ih =>
    intro x
    rw [List.foldl_cons, ih (10 * x + d)]
    have hd : digitsVal (d :: ds) = d * 10 ^ ds.length + digitsVal ds := by
      rw [digitsVal, List.foldl_cons, ih (10 * 0 + d)]
      ring_nf
    rw [hd]
    simp [List.length_cons, pow_succ]
    ring

theorem digitsVal_append (l1 l2 : List Nat) :
    digitsVal (l1 ++ l2) = digitsVal l1 * 10 ^ l2.length + digitsVal l2 := by
  rw [digitsVal, List.foldl_append, ← digitsVal, foldl_digits_init]

theorem digitsVal_natDigits (n : Nat) : digitsVal (natDigits n) = n := by
  induction n using Nat.strong_induction_on with
  | _ n ih =>
    by_cases hn : n < 10
    · rw [natDigits_lt hn]
      simp [digitsVal]
    · rw [natDigits_ge (by omega), digitsVal_append]
      have hd : n / 10 < n := Nat.div_lt_self (by omega) (by omega)
      rw [ih (n / 10) hd]
      have : digitsVal [n % 10] = n % 10 := by simp [digitsVal]
      rw [this]
      simp only [List.length_singleton, pow_one]
      omega

theorem natDigits_all_lt (n : Nat) : ∀ d ∈ natDigits n, d < 10 := by
  induction n using Nat.strong_induction_on with
  | _ n ih =>
    by_cases hn : n < 10
    · rw [natDigits_lt hn]
      intro d hd
      simp at hd
      omega
    · rw [natDigits_ge (by omega)]
      intro d hd
      rcases List.mem_append.mp hd with h | h
      · exact ih (n / 10) (Nat.div_lt_self (by omega) (by omega)) d h
      · simp at h
        omega

theorem natDigits_ne_nil (n : Nat) : natDigits n ≠ [] := by
  by_cases hn : n < 10
  · rw [natDigits_lt hn]
    simp
  · rw [natDigits_ge (by omega)]
    simp

theorem natDigits_length_le {n w : Nat} (hw : 1 ≤ w) (h : n < 10 ^ w) :
    (natDigits n).length ≤ w := by
  induction n using Nat.strong_induction_on generalizing w with
  | _ n ih =>
    by_cases hn : n < 10
    · rw [natDigits_lt hn]
      simpa using hw
    · have hw2 : 2 ≤ w := by
        by_contra hc
        have hw1 : w = 1 := by omega
        rw [hw1] at h
        simp at h
        omega
      rw [natDigits_ge (by omega), List.length_append]
      have hd : n / 10 < n := Nat.div_lt_self (by omega) (by omega)
      have hdiv : n / 10 < 10 ^ (w - 1) := by
        rw [Nat.div_lt_iff_lt_mul (by omega : 0 < 10)]
        calc n < 10 ^ w := h
        _ = 10 ^ (w - 1) * 10 := by
              rw [← pow_succ]
              congr 1
              omega
      have := ih (n / 10) hd (by omega) hdiv
      simp only [List.length_singleton]
      omega

/-- str(i) for a natural number. -/
def natToString (n : Nat) : String :=
  String.mk ((natDigits n).map (fun d => Char.ofNat (48 + d)))

/-! ### Phoneme sequence encoder (align2csv.py) -/

def SKIP_PHONES : List String := ["SIL", "SPN", "NSN"]

/-- gruut_ipa IPA.is_stress on a single character: the primary or secondary
stress marker. -/
def is_stress_char (c : Char) : Bool := c = 'ˈ' || c = 'ˌ'

/-- The inner loop of align2csv.py: leading stress markers are peeled off
one at a time into their own units, then the non-empty remainder is one
unit; an empty symbol contributes nothing. -/
def peel_stress : List Char → List (List Char)
  | [] => []
  | c :: rest => if is_stress_char c then [c] :: peel_stress rest else [c :: rest]

def split_phonemes (ipa : List String) : List String :=
  (ipa.map (fun p => (peel_stress p.data).map String.mk)).flatten

/-- The phonemes_to_id dict {p: i for i, p in enumerate(phoneme_ids)}: a
symbol occurring twice maps to its last index. -/
def lookup_all (vocab : List String) : List String → Option (List Nat)
  | [] => some []
  | p :: ps =>
    match rlast_idx vocab p with
    | none => none
    | some i =>
      match lookup_all vocab ps with
      | none => none
      | some is => some (i :: is)

def pron_ids (vocab : List String) (ipa : List String) : Option (List Nat) :=
  lookup_all vocab ((split_phonemes ipa).filter (fun p => !(SKIP_PHONES.contains p)))

def ids_string (ids : List Nat) : String := " ".intercalate (ids.map natToString)

/-- One iteration of the alignment loop, inside the try block: compute all
vocabulary ids, then (for speaker-tagged output) the metadata entry, then
the complete row; any exception yields no row at all for the line. -/
def encode_row (vocab : List String) (texts : List (String × String))
    (has_speaker : Bool) (utt_id : String) (ipa : List String) :
    Option (List String) :=
  match pron_ids vocab ipa with
  | none => none
  | some ids =>
    if has_speaker then
      match texts.lookup utt_id with
      | none => none
      | some speaker => some [utt_id, speaker, ids_string ids]
    else some [utt_id, ids_string ids]

/-- The pipe-delimited CSV line the row is written as. -/
def encode_line (vocab : List String) (texts : List (String × String))
    (has_speaker : Bool) (utt_id : String) (ipa : List String) : Option String :=
  (encode_row vocab texts has_speaker utt_id ipa).map
    (fun fields => "|".intercalate fields)

/-- The whole loop: one optional row per alignment line, failed lines
logged and skipped. -/
def encode_batch (vocab : List String) (texts : List (String × String))
    (has_speaker : Bool) (objs : List (String × List String)) :
    List (List String) :=
  objs.filterMap (fun o => encode_row vocab texts has_speaker o.1 o.2)

theorem lookup_all_length (vocab : List String) :
    ∀ l is, lookup_all vocab l = some is → is.length = l.length := by
  intro l
  induction l with
  | nil =>
    intro is h
    rw [lookup_all] at h
    injection h with h
    subst h
    rfl
  | cons p ps ih =>
    intro is h
    rw [lookup_all] at h
    cases h1 : rlast_idx vocab p with
    | none =>
      rw [h1] at h
      cases h
    | some i =>
      rw [h1] at h
      cases h2 : lookup_all vocab ps with
      | none =>
        rw [h2] at h
        cases h
      | some js =>
        rw [h2] at h
        injection h with h
        rw [← h]
        simp [ih js h2]

theorem lookup_all_none_of_mem (vocab : List String) :
    ∀ l u, u ∈ l → rlast_idx vocab u = none → lookup_all vocab l = none := by
  intro l
  induction l with
  | nil =>
    intro u hu _
    cases hu
  | cons p ps ih =>
    intro u hu hn
    rw [lookup_all]
    rcases List.mem_cons.mp hu with he | hm
    · subst he
      rw [hn]
    · cases h1 : rlast_idx vocab p with
      | none => rfl
      | some i => rw [ih u hm hn]

/-- Claim C7 counterexample: for the scenario of the spec the word-break and
major-break symbols are not filtered — SKIP_PHONES holds only SIL, SPN and
NSN — so the emitted line is u1|3 4 5 6 7 3 2, not u1|4 5 6 7. -/
theorem c7_counterexample :
    encode_line ["_", "|", "‖", "#", "h", "e", "l", "o"] [] false "u1"
        ["#", "h", "e", "l", "o", "#", "‖"] = some "u1|3 4 5 6 7 3 2"
    ∧ encode_line ["_", "|", "‖", "#", "h", "e", "l", "o"] [] false "u1"
        ["#", "h", "e", "l", "o", "#", "‖"] ≠ some "u1|4 5 6 7" := by
  constructor
  · decide
  · decide

/-- Claim C7 amended: encoding the spec scenario against the given vocabulary
yields u1|3 4 5 6 7 3 2 — the break symbols are looked up like any phoneme
(ids 3 and 2) because the filter excludes exactly the non-phonetic engine
labels SIL, SPN and NSN, to which neither break symbol belongs. -/
theorem c7_breaks_encoded :
    SKIP_PHONES = ["SIL", "SPN", "NSN"]
    ∧ WORD_BREAK ∉ SKIP_PHONES
    ∧ BREAK_MAJOR ∉ SKIP_PHONES
    ∧ encode_line ["_", "|", "‖", "#", "h", "e", "l", "o"] [] false "u1"
        ["#", "h", "e", "l", "o", "#", "‖"] = some "u1|3 4 5 6 7 3 2" := by
  refine ⟨rfl, by decide, by decide, by decide⟩

theorem encode_row_pron_none (vocab : List String) (texts : List (String × String))
    (has_speaker : Bool) (utt_id : String) (ipa : List String)
    (h : pron_ids vocab ipa = none) :
    encode_row vocab texts has_speaker utt_id ipa = none := by
  rw [encode_row, h]

theorem encode_row_no_speaker (vocab : List String) (texts : List (String × String))
    (utt_id : String) (ipa : List String) (ids : List Nat)
    (h : pron_ids vocab ipa = some ids) :
    encode_row vocab texts false utt_id ipa = some [utt_id, ids_string ids] := by
  rw [encode_row, h]
  rfl

theorem encode_row_speaker_missing (vocab : List String)
    (texts : List (String × String)) (utt_id : String) (ipa : List String)
    (ids : List Nat) (h1 : pron_ids vocab ipa = some ids)
    (h2 : texts.lookup utt_id = none) :
    encode_row vocab texts true utt_id ipa = none := by
  rw [encode_row, h1, h2]
  rfl

theorem encode_row_speaker_found (vocab : List String)
    (texts : List (String × String)) (utt_id : String) (ipa : List String)
    (ids : List Nat) (spk : String) (h1 : pron_ids vocab ipa = some ids)
    (h2 : texts.lookup utt_id = some spk) :
    encode_row vocab texts true utt_id ipa = some [utt_id, spk, ids_string ids] := by
  rw [encode_row, h1, h2]
  rfl

/-- Claim C10: per-line encoding is all-or-nothing and isolating — a line
whose encoding fails anywhere (a unit missing from the vocabulary, or, with
speaker-tagged output, a missing metadata entry) contributes no row at all,
and the batch simply continues with the remaining lines; a produced row
always carries the complete id sequence of the line. -/
theorem c10_per_line_isolation (vocab : List String)
    (texts : List (String × String)) (has_speaker : Bool) :
    (∀ pre bad post, encode_row vocab texts has_speaker bad.1 bad.2 = none →
        encode_batch vocab texts has_speaker (pre ++ bad :: post) =
          encode_batch vocab texts has_speaker pre ++
            encode_batch vocab texts has_speaker post)
    ∧ (∀ utt_id ipa row, encode_row vocab texts has_speaker utt_id ipa = some row →
        ∃ ids,
          lookup_all vocab
              ((split_phonemes ipa).filter (fun p => !(SKIP_PHONES.contains p))) =
            some ids
          ∧ ids.length =
              ((split_phonemes ipa).filter (fun p => !(SKIP_PHONES.contains p))).length
          ∧ (has_speaker = false → row = [utt_id, ids_string ids])
          ∧ (has_speaker = true → ∃ spk, texts.lookup utt_id = some spk
              ∧ row = [utt_id, spk, ids_string ids]))
    ∧ (∀ utt_id ipa u, u ∈ split_phonemes ipa → u ∉ SKIP_PHONES →
        rlast_idx vocab u = none →
        encode_row vocab texts has_speaker utt_id ipa = none)
    ∧ (∀ utt_id ipa, has_speaker = true → texts.lookup utt_id = none →
        encode_row vocab texts has_speaker utt_id ipa = none) := by
  refine ⟨?_, ?_, ?_, ?_⟩
  · intro pre bad post hbad
    rw [encode_batch, encode_batch, encode_batch]
    rw [List.filterMap_append, List.filterMap_cons, hbad]
  · intro utt_id ipa row hrow
    cases hp : pron_ids vocab ipa with
    | none =>
      rw [encode_row_pron_none vocab texts has_speaker utt_id ipa hp] at hrow
      cases hrow
    | some ids =>
      refine ⟨ids, hp, lookup_all_length vocab _ ids hp, ?_, ?_⟩
      · intro hs
        subst hs
        rw [encode_row_no_speaker vocab texts utt_id ipa ids hp] at hrow
        injection hrow with hrow
        rw [hrow]
      · intro hs
        subst hs
        cases ht : texts.lookup utt_id with
        | none =>
          rw [encode_row_speaker_missing vocab texts utt_id ipa ids hp ht] at hrow
          cases hrow
        | some spk =>
          rw [encode_row_speaker_found vocab texts utt_id ipa ids spk hp ht] at hrow
          injection hrow with hrow
          exact ⟨spk, rfl, hrow.symm⟩
  · intro utt_id ipa u hmem hskip hnone
    have hfil : u ∈ (split_phonemes ipa).filter (fun p => !(SKIP_PHONES.contains p)) := by
      rw [List.mem_filter]
      refine ⟨hmem, ?_⟩
      simp [hskip]
    exact encode_row_pron_none vocab texts has_speaker utt_id ipa
      (lookup_all_none_of_mem vocab _ u hfil hnone)
  · intro utt_id ipa hs ht
    subst hs
    cases hp : pron_ids vocab ipa with
    | none => exact encode_row_pron_none vocab texts true utt_id ipa hp
    | some ids => exact encode_row_speaker_missing vocab texts utt_id ipa ids hp ht

theorem c10_per_line_isolation_witness :
    encode_batch ["a"] [] false ([("u1", ["a"])] ++ ("u2", ["zz"]) :: [("u3", ["a"])]) =
      encode_batch ["a"] [] false [("u1", ["a"])] ++
        encode_batch ["a"] [] false [("u3", ["a"])] :=
  (c10_per_line_isolation ["a"] [] false).1 [("u1", ["a"])] ("u2", ["zz"])
    [("u3", ["a"])] (by decide)

/-! ### Engine utterance ids (__main__.py)

kaldi_utt_id = f"{speaker}-%0{num_digits}d" % utt_index, with num_digits =
int(math.ceil(math.log10(len(sorted_utt_ids)))) computed once per batch. -/

/-- Strict lexicographic comparison of code-point sequences, the order the
external engine's LC_ALL=C sort applies to the generated ids. -/
def lexLtChars : List Char → List Char → Bool
  | [], [] => false
  | [], _ :: _ => true
  | _ :: _, [] => false
  | a :: as, b :: bs =>
    if a.toNat < b.toNat then true
    else if b.toNat < a.toNat then false
    else lexLtChars as bs

theorem lexLtChars_append_same : ∀ p a b : List Char,
    lexLtChars (p ++ a) (p ++ b) = lexLtChars a b := by
  intro p
  induction p with
  | nil => intro a b; rfl
  | cons x xs ih =>
    intro a b
    show lexLtChars (x :: (xs ++ a)) (x :: (xs ++ b)) = lexLtChars a b
    rw [lexLtChars]
    rw [if_neg (by omega), if_neg (by omega)]
    exact ih a b

theorem digitsVal_cons (d : Nat) (ds : List Nat) :
    digitsVal (d :: ds) = d * 10 ^ ds.length + digitsVal ds := by
  rw [digitsVal, List.foldl_cons, foldl_digits_init]
  ring_nf

theorem digitsVal_lt_of_bounded : ∀ l : List Nat, (∀ d ∈ l, d < 10) →
    digitsVal l < 10 ^ l.length := by
  intro l
  induction l with
  | nil => intro _; simp [digitsVal]
  | cons d ds ih =>
    intro hb
    rw [digitsVal_cons]
    have hd : d < 10 := hb d (List.mem_cons_self d ds)
    have hds : digitsVal ds < 10 ^ ds.length :=
      ih (fun x hx => hb x (List.mem_cons_of_mem d hx))
    have h1 : d * 10 ^ ds.length + digitsVal ds < (d + 1) * 10 ^ ds.length := by
      rw [add_mul, one_mul]
      omega
    have h2 : (d + 1) * 10 ^ ds.length ≤ 10 * 10 ^ ds.length :=
      Nat.mul_le_mul_right _ (by omega)
    calc d * 10 ^ ds.length + digitsVal ds < (d + 1) * 10 ^ ds.length := h1
      _ ≤ 10 * 10 ^ ds.length := h2
      _ = 10 ^ (ds.length + 1) := by ring
      _ = 10 ^ (d :: ds).length := by rw [List.length_cons]

theorem dChar_toNat {d : Nat} (h : d < 10) : (Char.ofNat (48 + d)).toNat = 48 + d := by
  interval_cases d <;> decide

theorem lexLt_digits_of_val_lt : ∀ l1 l2 : List Nat, l1.length = l2.length →
    (∀ d ∈ l1, d < 10) → (∀ d ∈ l2, d < 10) → digitsVal l1 < digitsVal l2 →
    lexLtChars (l1.map (fun d => Char.ofNat (48 + d)))
      (l2.map (fun d => Char.ofNat (48 + d))) = true := by
  intro l1
  induction l1 with
  | nil =>
    intro l2 hlen _ _ hval
    cases l2 with
    | nil => simp [digitsVal] at hval
    | cons b bs => simp at hlen
  | cons a as ih =>
    intro l2 hlen hb1 hb2 hval
    cases l2 with
    | nil => simp at hlen
    | cons b bs =>
      have ha : a < 10 := hb1 a (List.mem_cons_self a as)
      have hbb : b < 10 := hb2 b (List.mem_cons_self b bs)
      have hlen' : as.length = bs.length := by simpa using hlen
      rw [List.map_cons, List.map_cons, lexLtChars]
      rw [dChar_toNat ha, dChar_toNat hbb]
      by_cases hab : a < b
      · rw [if_pos (by omega)]
      · by_cases hba : b < a
        · exfalso
          rw [digitsVal_cons, digitsVal_cons] at hval
          have hvbs : digitsVal bs < 10 ^ bs.length :=
            digitsVal_lt_of_bounded bs (fun x hx => hb2 x (List.mem_cons_of_mem b hx))
          have hstep : b * 10 ^ bs.length + 10 ^ bs.length ≤ a * 10 ^ bs.length := by
            have h1 : (b + 1) * 10 ^ bs.length ≤ a * 10 ^ bs.length :=
              Nat.mul_le_mul_right _ (by omega)
            rw [add_mul, one_mul] at h1
            exact h1
          rw [hlen'] at hval
          omega
        · have hab' : a = b := by omega
          rw [if_neg (by omega), if_neg (by omega)]
          apply ih bs hlen' (fun x hx => hb1 x (List.mem_cons_of_mem a hx))
            (fun x hx => hb2 x (List.mem_cons_of_mem b hx))
          rw [digitsVal_cons, digitsVal_cons, hab', hlen'] at hval
          omega

theorem map_dChar_inj : ∀ l1 l2 : List Nat, (∀ d ∈ l1, d < 10) → (∀ d ∈ l2, d < 10) →
    l1.map (fun d => Char.ofNat (48 + d)) = l2.map (fun d => Char.ofNat (48 + d)) →
    l1 = l2 := by
  intro l1
  induction l1 with
  | nil =>
    intro l2 _ _ h
    cases l2 with
    | nil => rfl
    | cons b bs => simp at h
  | cons a as ih =>
    intro l2 hb1 hb2 h
    cases l2 with
    | nil => simp at h
    | cons b bs =>
      rw [List.map_cons, List.map_cons] at h
      injection h with h1 h2
      have ha : a < 10 := hb1 a (List.mem_cons_self a as)
      have hbb : b < 10 := hb2 b (List.mem_cons_self b bs)
      have hab : a = b := by
        have := congrArg Char.toNat h1
        rw [dChar_toNat ha, dChar_toNat hbb] at this
        omega
      rw [hab, ih bs (fun x hx => hb1 x (List.mem_cons_of_mem a hx))
        (fun x hx => hb2 x (List.mem_cons_of_mem b hx)) h2]

/-- Zero padding of the %0wd format: str(n) left-padded with zeros to width
w (longer representations are kept whole). -/
def pad0 (w n : Nat) : List Nat :=
  List.replicate (w - (natDigits n).length) 0 ++ natDigits n

theorem digitsVal_replicate_zero : ∀ k : Nat, digitsVal (List.replicate k 0) = 0 := by
  intro k
  induction k with
  | zero => rfl
  | succ k ih =>
    rw [List.replicate_succ, digitsVal_cons, ih]
    omega

theorem digitsVal_pad0 (w n : Nat) : digitsVal (pad0 w n) = n := by
  rw [pad0, digitsVal_append, digitsVal_replicate_zero, digitsVal_natDigits]
  omega

theorem pad0_length {w n : Nat} (hw : 1 ≤ w) (h : n < 10 ^ w) :
    (pad0 w n).length = w := by
  have hle : (natDigits n).length ≤ w := natDigits_length_le hw h
  rw [pad0, List.length_append, List.length_replicate]
  omega

theorem pad0_all_lt (w n : Nat) : ∀ d ∈ pad0 w n, d < 10 := by
  intro d hd
  rcases List.mem_append.mp hd with h | h
  · have := List.eq_of_mem_replicate h
    omega
  · exact natDigits_all_lt n d h

/-- The generated id, f"{speaker}-%0{w}d" % i, as its code-point list. -/
def engineIdChars (speaker : List Char) (w i : Nat) : List Char :=
  speaker ++ '-' :: (pad0 w i).map (fun d => Char.ofNat (48 + d))

def engineId (speaker : String) (w i : Nat) : String :=
  String.mk (engineIdChars speaker.data w i)

theorem engineIdChars_inj {s1 s2 : List Char} {w i j : Nat} (hw : 1 ≤ w)
    (hi : i < 10 ^ w) (hj : j < 10 ^ w)
    (h : engineIdChars s1 w i = engineIdChars s2 w j) : i = j := by
  rw [engineIdChars, engineIdChars] at h
  rw [show s1 ++ '-' :: (pad0 w i).map (fun d => Char.ofNat (48 + d)) =
      (s1 ++ ['-']) ++ (pad0 w i).map (fun d => Char.ofNat (48 + d)) by simp] at h
  rw [show s2 ++ '-' :: (pad0 w j).map (fun d => Char.ofNat (48 + d)) =
      (s2 ++ ['-']) ++ (pad0 w j).map (fun d => Char.ofNat (48 + d)) by simp] at h
  have hlen : ((pad0 w i).map (fun d => Char.ofNat (48 + d))).length =
      ((pad0 w j).map (fun d => Char.ofNat (48 + d))).length := by
    rw [List.length_map, List.length_map, pad0_length hw hi, pad0_length hw hj]
  obtain ⟨-, h2⟩ := List.append_inj' h hlen
  have hpad : pad0 w i = pad0 w j :=
    map_dChar_inj (pad0 w i) (pad0 w j) (pad0_all_lt w i) (pad0_all_lt w j) h2
  have := congrArg digitsVal hpad
  rw [digitsVal_pad0, digitsVal_pad0] at this
  exact this

theorem engineIdChars_lt {s : List Char} {w i j : Nat} (hw : 1 ≤ w)
    (hij : i < j) (hj : j < 10 ^ w) :
    lexLtChars (engineIdChars s w i) (engineIdChars s w j) = true := by
  rw [engineIdChars, engineIdChars]
  rw [show s ++ '-' :: (pad0 w i).map (fun d => Char.ofNat (48 + d)) =
      (s ++ ['-']) ++ (pad0 w i).map (fun d => Char.ofNat (48 + d)) by simp]
  rw [show s ++ '-' :: (pad0 w j).map (fun d => Char.ofNat (48 + d)) =
      (s ++ ['-']) ++ (pad0 w j).map (fun d => Char.ofNat (48 + d)) by simp]
  rw [lexLtChars_append_same]
  apply lexLt_digits_of_val_lt
  · rw [pad0_length hw (by omega), pad0_length hw hj]
  · exact pad0_all_lt w i
  · exact pad0_all_lt w j
  · rw [digitsVal_pad0, digitsVal_pad0]
    exact hij

theorem natDigits_length_upper (m : Nat) : m < 10 ^ (natDigits m).length := by
  induction m using Nat.strong_induction_on with
  | _ m ih =>
    by_cases hm : m < 10
    · rw [natDigits_lt hm]
      simpa using hm
    · rw [natDigits_ge (by omega), List.length_append]
      have hd : m / 10 < m := Nat.div_lt_self (by omega) (by omega)
      have hih : m / 10 < 10 ^ (natDigits (m / 10)).length := ih (m / 10) hd
      have hsplit : m = m / 10 * 10 + m % 10 := by omega
      have h1 : m < (m / 10 + 1) * 10 := by omega
      have h2 : (m / 10 + 1) * 10 ≤ 10 ^ (natDigits (m / 10)).length * 10 :=
        Nat.mul_le_mul_right _ (by omega)
      simp only [List.length_singleton]
      calc m < (m / 10 + 1) * 10 := h1
        _ ≤ 10 ^ (natDigits (m / 10)).length * 10 := h2
        _ = 10 ^ ((natDigits (m / 10)).length + 1) := by ring

theorem natDigits_length_lower (m : Nat) (hm : 1 ≤ m) :
    10 ^ ((natDigits m).length - 1) ≤ m := by
  induction m using Nat.strong_induction_on with
  | _ m ih =>
    by_cases hm10 : m < 10
    · rw [natDigits_lt hm10]
      simpa using hm
    · rw [natDigits_ge (by omega), List.length_append]
      have hd : m / 10 < m := Nat.div_lt_self (by omega) (by omega)
      have hq1 : 1 ≤ m / 10 := by omega
      have hih : 10 ^ ((natDigits (m / 10)).length - 1) ≤ m / 10 := ih (m / 10) hd hq1
      have hne : (natDigits (m / 10)).length ≠ 0 := by
        intro h
        exact natDigits_ne_nil (m / 10) (List.length_eq_zero.mp h)
      simp only [List.length_singleton]
      have hexp : (natDigits (m / 10)).length + 1 - 1 =
          ((natDigits (m / 10)).length - 1) + 1 := by omega
      rw [hexp, pow_succ]
      calc 10 ^ ((natDigits (m / 10)).length - 1) * 10 ≤ m / 10 * 10 :=
            Nat.mul_le_mul_right _ hih
        _ ≤ m := by omega

/-- int(math.ceil(math.log10(n))) for n ≥ 1 (for n = 0 the Python call
raises a math domain error before any id is generated). -/
def clog10 (n : Nat) : Nat := if n ≤ 1 then 0 else (natDigits (n - 1)).length

/-- Sanity: clog10 agrees with the mathematical ceiling base-10 logarithm. -/
theorem clog10_eq_clog (n : Nat) (hn : 1 ≤ n) : clog10 n = Nat.clog 10 n := by
  by_cases h1 : n ≤ 1
  · have hn1 : n = 1 := by omega
    subst hn1
    rw [clog10, if_pos (by omega), Nat.clog_one_right]
  · have hn2 : 2 ≤ n := by omega
    rw [clog10, if_neg h1]
    have hd1 : 1 ≤ (natDigits (n - 1)).length := by
      have := natDigits_ne_nil (n - 1)
      cases h : natDigits (n - 1) with
      | nil => exact absurd h this
      | cons x xs => simp [h]
    apply le_antisymm
    · have hlow : 10 ^ ((natDigits (n - 1)).length - 1) ≤ n - 1 :=
        natDigits_length_lower (n - 1) (by omega)
      have hlt : 10 ^ ((natDigits (n - 1)).length - 1) < n := by omega
      have := (Nat.pow_lt_iff_lt_clog (by norm_num : 1 < 10)).mp hlt
      omega
    · have hup : n - 1 < 10 ^ (natDigits (n - 1)).length :=
        natDigits_length_upper (n - 1)
      have hle : n ≤ 10 ^ (natDigits (n - 1)).length := by omega
      exact (Nat.le_pow_iff_clog_le (by norm_num : 1 < 10)).mp hle

theorem le_pow_clog10 {n : Nat} (hn : 2 ≤ n) : n ≤ 10 ^ clog10 n := by
  rw [clog10, if_neg (by omega)]
  have := natDigits_length_upper (n - 1)
  omega

theorem clog10_pos {n : Nat} (hn : 2 ≤ n) : 1 ≤ clog10 n := by
  rw [clog10, if_neg (by omega)]
  have := natDigits_ne_nil (n - 1)
  cases h : natDigits (n - 1) with
  | nil => exact absurd h this
  | cons x xs => simp [h]

/-- Ordering of the utterance dict items by utterance id, modelling
sorted(utterances.keys()) with the per-id speaker lookup (utterance ids are
unique dict keys). -/
def pairLe (a b : String × String) : Prop := strLe a.1 b.1

instance : DecidableRel pairLe :=
  fun a b => inferInstanceAs (Decidable (strLe a.1 b.1))

def sortBatch (batch : List (String × String)) : List (String × String) :=
  List.insertionSort pairLe batch

/-- The id-generation loop: for utt_index, utt_id in enumerate(sorted ids),
kaldi_utt_id = speaker-index zero-padded to the batch width. -/
def assignIdsGo (w : Nat) : Nat → List (String × String) → List String
  | _, [] => []
  | i, u :: rest => engineId u.2 w i :: assignIdsGo w (i + 1) rest

def assignIds (batch : List (String × String)) : List String :=
  assignIdsGo (clog10 batch.length) 0 (sortBatch batch)

theorem assignIdsGo_length (w : Nat) : ∀ i us, (assignIdsGo w i us).length = us.length := by
  intro i us
  induction us generalizing i with
  | nil => rfl
  | cons u rest ih =>
    rw [assignIdsGo]
    simp [ih]

theorem assignIdsGo_getD (w : Nat) : ∀ us i k, k < us.length →
    (assignIdsGo w i us).getD k "" = engineId (us.getD k ("", "")).2 w (i + k) := by
  intro us
  induction us with
  | nil =>
    intro i k hk
    simp at hk
  | cons u rest ih =>
    intro i k hk
    cases k with
    | zero => rfl
    | succ k' =>
      rw [assignIdsGo]
      have hk' : k' < rest.length := by simpa using hk
      show (assignIdsGo w (i + 1) rest).getD k' "" = _
      rw [ih (i + 1) k' hk']
      have : i + 1 + k' = i + (k' + 1) := by omega
      rw [this]
      rfl

/-- Claim C9 amended: each utterance gets engine id speaker-index with the
index its rank in the sorted ordering, zero-padded to width
ceil(log10(utterance count)) computed once per batch (clog10 agrees with the
ceiling logarithm); the engine ids are pairwise distinct for any speakers;
and when all utterances of the batch share one speaker — as whenever the
metadata carries no speaker column, every utterance getting speaker1 — the
lexicographic order of the ids equals the processing (rank) order. With
distinct speakers the lexicographic order can differ from the rank order. -/
theorem c9_engine_ids (batch : List (String × String)) :
    (assignIds batch).length = batch.length
    ∧ (1 ≤ batch.length → clog10 batch.length = Nat.clog 10 batch.length)
    ∧ (∀ i j, i < j → j < batch.length →
        (assignIds batch).getD i "" ≠ (assignIds batch).getD j "")
    ∧ (∀ spk, (∀ u ∈ batch, u.2 = spk) →
        ∀ i j, i < j → j < batch.length →
          lexLtChars ((assignIds batch).getD i "").data
            ((assignIds batch).getD j "").data = true) := by
  have hlen : (sortBatch batch).length = batch.length :=
    (List.perm_insertionSort pairLe batch).length_eq
  refine ⟨?_, fun h => clog10_eq_clog batch.length h, ?_, ?_⟩
  · rw [assignIds, assignIdsGo_length, hlen]
  · intro i j hij hj
    have hn2 : 2 ≤ batch.length := by omega
    have hw : 1 ≤ clog10 batch.length := clog10_pos hn2
    have hpow : batch.length ≤ 10 ^ clog10 batch.length := le_pow_clog10 hn2
    rw [assignIds, assignIdsGo_getD _ _ 0 i (by omega),
      assignIdsGo_getD _ _ 0 j (by omega)]
    intro heq
    rw [engineId, engineId] at heq
    have hchars := congrArg String.data heq
    simp only [] at hchars
    have := engineIdChars_inj hw (by omega) (by omega) hchars
    omega
  · intro spk hspk i j hij hj
    have hn2 : 2 ≤ batch.length := by omega
    have hw : 1 ≤ clog10 batch.length := clog10_pos hn2
    have hpow : batch.length ≤ 10 ^ clog10 batch.length := le_pow_clog10 hn2
    have hmemspk : ∀ k, k < batch.length →
        ((sortBatch batch).getD k ("", "")).2 = spk := by
      intro k hk
      have hk' : k < (sortBatch batch).length := by omega
      rw [List.getD_eq_getElem _ _ hk']
      apply hspk
      exact (List.perm_insertionSort pairLe batch).subset (List.getElem_mem hk')
    rw [assignIds, assignIdsGo_getD _ _ 0 i (by omega),
      assignIdsGo_getD _ _ 0 j (by omega)]
    rw [engineId, engineId]
    rw [hmemspk i (by omega), hmemspk j (by omega)]
    show lexLtChars (engineIdChars spk.data _ (0 + i))
      (engineIdChars spk.data _ (0 + j)) = true
    exact engineIdChars_lt hw (by omega) (by omega)

/-- Claim C9 counterexample: a two-utterance batch with speakers b and a in
rank order gets engine ids b-0 then a-1, and a-1 sorts lexicographically
strictly before b-0 — the lexicographic order of the engine ids is not the
processing order. -/
theorem c9_counterexample :
    assignIds [("u1", "b"), ("u2", "a")] = ["b-0", "a-1"]
    ∧ lexLtChars ((assignIds [("u1", "b"), ("u2", "a")]).getD 1 "").data
        ((assignIds [("u1", "b"), ("u2", "a")]).getD 0 "").data = true := by
  constructor
  · decide
  · decide

theorem c9_engine_ids_witness :
    (assignIds [("u1", "s"), ("u2", "s"), ("u3", "s")]).getD 0 "" ≠
        (assignIds [("u1", "s"), ("u2", "s"), ("u3", "s")]).getD 1 ""
    ∧ lexLtChars
        ((assignIds [("u1", "s"), ("u2", "s"), ("u3", "s")]).getD 0 "").data
        ((assignIds [("u1", "s"), ("u2", "s"), ("u3", "s")]).getD 1 "").data = true :=
  ⟨(c9_engine_ids [("u1", "s"), ("u2", "s"), ("u3", "s")]).2.2.1 0 1 (by omega)
      (by norm_num),
    (c9_engine_ids [("u1", "s"), ("u2", "s"), ("u3", "s")]).2.2.2 "s" (by decide) 0 1
      (by omega) (by norm_num)⟩

end KaldiAlign
